import Mathlib

/-!
# Tag tree editor (`frontend/src/components/TagView.js`)

A shallow embedding of the tree editing functions of `TagView.js`
(`updateNodeData`, `updateNodeName`, `addChildNode`, `extractTreeData`, the
name handlers of `TagNode`) and the properties stated about them.

JavaScript values are modelled as follows.

* A scalar property read (`node.name`, `node.data`) yields a `JSVal`:
  `undefined` (also what a missing key reads as), `null`, or a string.  The
  source never asks whether a key exists (`in`, `hasOwnProperty`), it only
  reads, so a missing key and a key holding `undefined` are the same value.
* `node.children` is either missing (`none`) or an array.  An array element
  is a `Slot`: a hole of a sparse array, an `undefined`/`null` element, or a
  node object.  Holes appear when `newChildren[index] = ...` writes past the
  end of the array.
* A thrown `TypeError` is `Except.error JSError.typeError`.
* Names and data are text, as in the data model; path indices are natural
  numbers.
-/

namespace TagView

/-- Value of a scalar property read: `undefined`, `null` or a string. -/
inductive JSVal where
  | undefined
  | null
  | str (s : String)
  deriving DecidableEq

/-- One position of a JavaScript array of nodes. -/
inductive Slot (α : Type) where
  | hole
  | undef
  | node (n : α)
  deriving DecidableEq

/-- A node object `{ name, data, children }`. -/
inductive Node where
  | mk (name : JSVal) (data : JSVal) (children : Option (List (Slot Node)))

/-- Exceptions the modelled code can throw. -/
inductive JSError where
  | typeError
  deriving DecidableEq

/-- Property read `node.name`. -/
def Node.name : Node → JSVal
  | .mk n _ _ => n

/-- Property read `node.data`. -/
def Node.data : Node → JSVal
  | .mk _ d _ => d

/-- Property read `node.children`. -/
def Node.children : Node → Option (List (Slot Node))
  | .mk _ _ c => c

/-- Object spread `{ ...node }`: the own properties of `node`; spreading
`undefined` or `null` contributes no property. -/
def spread : Option Node → Node
  | some n => n
  | none => .mk .undefined .undefined none

/-- Element of `[...arr]` for a slot of `arr`: the iterator reads a hole as
`undefined`. -/
def spreadSlot : Slot Node → Slot Node
  | .hole => .undef
  | .undef => .undef
  | .node n => .node n

/-- Array spread `[...arr]`. -/
def spreadArray (arr : List (Slot Node)) : List (Slot Node) :=
  arr.map spreadSlot

/-- Indexed read `arr[index]`: a node object, or `none` for what the callee
sees as `undefined`/`null` (a hole, an empty element, an index past the end). -/
def arrayGet (arr : List (Slot Node)) (index : Nat) : Option Node :=
  match arr[index]? with
  | some (.node n) => some n
  | _ => none

/-- Indexed write `arr[index] = v` (`index` an array index, below `2^32 - 1`):
inside the array the element is replaced, past the end the array grows to
length `index + 1` and the skipped positions are holes. -/
def arraySet (arr : List (Slot Node)) (index : Nat) (v : Node) : List (Slot Node) :=
  if index < arr.length then arr.set index (.node v)
  else arr ++ List.replicate (index - arr.length) .hole ++ [.node v]

/-- The expression `newData || null`. -/
def orNull : JSVal → JSVal
  | .str s => if s = "" then .null else .str s
  | _ => .null

/-- The test `v !== undefined && v !== null && v !== ''`. -/
def isNonEmpty : JSVal → Bool
  | .str s => decide (s ≠ "")
  | _ => false

/-- The test `v !== undefined && v !== null` of `addChildNode`. -/
def isDefined : JSVal → Bool
  | .undefined => false
  | .null => false
  | .str _ => true

/-- The starter tree `getDefaultTree()`. -/
def getDefaultTree : Node :=
  .mk (.str "root") .undefined (some [
    .node (.mk (.str "child1") .undefined (some [
      .node (.mk (.str "child1-child1") (.str "c1-c1 Hello") none),
      .node (.mk (.str "child1-child2") (.str "c1-c2 JS") none)])),
    .node (.mk (.str "child2") (.str "c2 World") none)])

/-- The function `updateNodeData(node, path, newData)`. -/
def updateNodeData : Option Node → List Nat → JSVal → Except JSError Node
  | node, [], newData =>
    -- const updated = { ...node, data: newData || null }
    let updated := Node.mk (spread node).name (orNull newData) (spread node).children
    if isNonEmpty newData then
      -- delete updated.children
      .ok (.mk updated.name updated.data none)
    else
      .ok updated
  | none, _ :: _, _ => .error .typeError -- node.children on undefined
  | some n, index :: rest, newData =>
    match n.children with
    | none => .error .typeError -- [...undefined]
    | some cs =>
      let newChildren := spreadArray cs
      match updateNodeData (arrayGet newChildren index) rest newData with
      | .error e => .error e
      | .ok r => .ok (.mk n.name n.data (some (arraySet newChildren index r)))

/-- The function `updateNodeName(node, path, newName)`. -/
def updateNodeName : Option Node → List Nat → String → Except JSError Node
  | node, [], newName =>
    -- { ...node, name: newName }
    .ok (.mk (.str newName) (spread node).data (spread node).children)
  | none, _ :: _, _ => .error .typeError
  | some n, index :: rest, newName =>
    match n.children with
    | none => .error .typeError
    | some cs =>
      let newChildren := spreadArray cs
      match updateNodeName (arrayGet newChildren index) rest newName with
      | .error e => .error e
      | .ok r => .ok (.mk n.name n.data (some (arraySet newChildren index r)))

/-- The new child `{ name: 'New Child', data: 'Data' }`. -/
def newChild : Node :=
  .mk (.str "New Child") (.str "Data") none

/-- The function `addChildNode(node, path)`. -/
def addChildNode : Option Node → List Nat → Except JSError Node
  | none, [] => .error .typeError -- node.data on undefined
  | some n, [] =>
    if isDefined n.data then
      -- { ...node, data: undefined, children: [{ name: 'New Child', data: 'Data' }] }
      .ok (.mk n.name .undefined (some [.node newChild]))
    else
      -- { ...node, children: [...(node.children || []), newChild] }
      .ok (.mk n.name n.data (some (spreadArray (n.children.getD []) ++ [.node newChild])))
  | none, _ :: _ => .error .typeError
  | some n, index :: rest =>
    match n.children with
    | none => .error .typeError
    | some cs =>
      let newChildren := spreadArray cs
      match addChildNode (arrayGet newChildren index) rest with
      | .error e => .error e
      | .ok r => .ok (.mk n.name n.data (some (arraySet newChildren index r)))

mutual
/-- The function `extractTreeData(node)`.  The result object has the keys of a node, so it
is a `Node` again: `name` always, `children` and `data` only when set. -/
def extractTreeData : Node → Except JSError Node
  | .mk name data children =>
    let d := if isNonEmpty data then data else .undefined
    match children with
    | none => .ok (.mk name d none)
    | some [] => .ok (.mk name d none)
    | some (c :: cs) =>
      match extractChildren (c :: cs) with
      | .error e => .error e
      | .ok r => .ok (.mk name d (some r))
/-- The call `children.map(child => extractTreeData(child))`: `map` skips a hole and
leaves it a hole; on an `undefined`/`null` element the callback throws when it
reads `node.name`. -/
def extractChildren : List (Slot Node) → Except JSError (List (Slot Node))
  | [] => .ok []
  | .hole :: rest =>
    match extractChildren rest with
    | .error e => .error e
    | .ok r => .ok (.hole :: r)
  | .undef :: _ => .error .typeError
  | .node n :: rest =>
    match extractTreeData n with
    | .error e => .error e
    | .ok d =>
      match extractChildren rest with
      | .error e => .error e
      | .ok r => .ok (.node d :: r)
end

/-- The handler `handleNameChange(path, newName)` of `TagView`: the tree passed to
`setTagTree`; a throw inside leaves the state as it was. -/
def handleNameChange (tagTree : Node) (path : List Nat) (newName : String) :
    Except JSError Node :=
  updateNodeName (some tagTree) path newName

/-- The handler `handleDataChange(path, newData)` of `TagView`. -/
def handleDataChange (tagTree : Node) (path : List Nat) (newData : JSVal) :
    Except JSError Node :=
  updateNodeData (some tagTree) path newData

/-- The handler `handleAddChild(path)` of `TagView`. -/
def handleAddChild (tagTree : Node) (path : List Nat) : Except JSError Node :=
  addChildNode (some tagTree) path

/-- White space and line terminators removed by `String.prototype.trim`. -/
def isJSWhiteSpace (c : Char) : Bool :=
  decide (c.toNat ∈ [0x9, 0xA, 0xB, 0xC, 0xD, 0x20, 0xA0, 0x1680, 0x2028, 0x2029,
    0x202F, 0x205F, 0x3000, 0xFEFF]) || (decide (0x2000 ≤ c.toNat) && decide (c.toNat ≤ 0x200A))

/-- The call `s.trim()`. -/
def jsTrim (s : String) : String :=
  String.mk ((((s.toList.dropWhile isJSWhiteSpace).reverse).dropWhile isJSWhiteSpace).reverse)

/-- React state read and written by the name handlers of one `TagNode`: the
tree of the enclosing `TagView` and the two state variables of the node. -/
structure EditorState where
  tagTree : Node
  editName : JSVal
  isEditingName : Bool

/-- The handler `handleNameBlur()` of the `TagNode` showing `node` at `path`. -/
def handleNameBlur (st : EditorState) (node : Node) (path : List Nat) :
    Except JSError EditorState :=
  match st.editName with
  | .str editName =>
    if jsTrim editName ≠ "" then
      match handleNameChange st.tagTree path (jsTrim editName) with
      | .error e => .error e
      | .ok t => .ok ⟨t, st.editName, false⟩
    else
      .ok ⟨st.tagTree, node.name, false⟩
  | _ => .error .typeError -- editName.trim() on a value that is not a string

/-- The handler `handleNameKeyPress(e)` of the `TagNode` showing `node` at `path`, with
`key` the value of `e.key`. -/
def handleNameKeyPress (st : EditorState) (node : Node) (path : List Nat) (key : String) :
    Except JSError EditorState :=
  if key = "Enter" then
    match st.editName with
    | .str editName =>
      if jsTrim editName ≠ "" then
        match handleNameChange st.tagTree path (jsTrim editName) with
        | .error e => .error e
        | .ok t => .ok ⟨t, st.editName, false⟩
      else
        .ok st
    | _ => .error .typeError
  else if key = "Escape" then
    .ok ⟨st.tagTree, node.name, false⟩
  else
    .ok st

/-! ## Paths, edits and the predicates of the properties -/

/-- The node a path addresses: descend through `children[index]` for each
index in turn (the paths `TagNode` builds as `[...path, index]`); `none` when
a level has no children array or the index holds no node. -/
def nodeAt : Node → List Nat → Option Node
  | n, [] => some n
  | n, index :: rest =>
    match n.children with
    | none => none
    | some cs =>
      match arrayGet cs index with
      | none => none
      | some c => nodeAt c rest

/-- How a path fails to address a node. -/
inductive PathStatus where
  /-- Every index holds a node. -/
  | valid
  /-- Only the last index holds no node; its parent has a children array. -/
  | lastMissing
  /-- A level has no children array, or an index before the last holds no node. -/
  | broken
  deriving DecidableEq

/-- Classification of a path in a tree. -/
def pathStatus : Node → List Nat → PathStatus
  | _, [] => .valid
  | n, index :: rest =>
    match n.children with
    | none => .broken
    | some cs =>
      match arrayGet cs index with
      | some c => pathStatus c rest
      | none => if rest = [] then .lastMissing else .broken

/-- One editing call, without its tree and path. -/
inductive Edit where
  | rename (newName : String)
  | setData (newData : JSVal)
  | addChild
  deriving DecidableEq

/-- The editing call `e` on tree `T` at `path`. -/
def applyEdit (e : Edit) (T : Node) (path : List Nat) : Except JSError Node :=
  match e with
  | .rename newName => updateNodeName (some T) path newName
  | .setData newData => updateNodeData (some T) path newData
  | .addChild => addChildNode (some T) path

/-- A sequence of editing calls, each on the tree the previous one returned. -/
def applyEdits : Node → List (Edit × List Nat) → Except JSError Node
  | T, [] => .ok T
  | T, (e, path) :: rest =>
    match applyEdit e T path with
    | .error err => .error err
    | .ok T1 => applyEdits T1 rest

/-- Every call of the sequence is made at a path that addresses a node of the
tree current at that point.  (Nothing is asked of the calls after one that
throws: there is no current tree for them.) -/
def validEdits : Node → List (Edit × List Nat) → Bool
  | _, [] => true
  | T, (e, path) :: rest =>
    (nodeAt T path).isSome &&
      match applyEdit e T path with
      | .error _ => true
      | .ok T1 => validEdits T1 rest

mutual
/-- No node of the tree has both non-empty data and a non-empty children
array. -/
def exclusive : Node → Bool
  | .mk _ data children =>
    match children with
    | none => true
    | some [] => true
    | some (c :: cs) => !isNonEmpty data && exclusiveSlots (c :: cs)
/-- The nodes held by the slots are all `exclusive`. -/
def exclusiveSlots : List (Slot Node) → Bool
  | [] => true
  | .node n :: rest => exclusive n && exclusiveSlots rest
  | .hole :: rest => exclusiveSlots rest
  | .undef :: rest => exclusiveSlots rest
end

mutual
/-- The object is a tree of the data model: every element of every children
array, at every depth, is a node object (no hole, no `undefined`/`null`). -/
def isTree : Node → Bool
  | .mk _ _ children =>
    match children with
    | none => true
    | some cs => isTreeSlots cs
/-- Every slot holds a node that is a tree. -/
def isTreeSlots : List (Slot Node) → Bool
  | [] => true
  | .node n :: rest => isTree n && isTreeSlots rest
  | .hole :: _ => false
  | .undef :: _ => false
end

mutual
/-- No node of the tree is unclassified: every node has non-empty data or a
non-empty children array. -/
def noUnclassified : Node → Bool
  | .mk _ data children =>
    match children with
    | none => isNonEmpty data
    | some [] => isNonEmpty data
    | some (c :: cs) => noUnclassifiedSlots (c :: cs)
/-- The nodes held by the slots have no unclassified node. -/
def noUnclassifiedSlots : List (Slot Node) → Bool
  | [] => true
  | .node n :: rest => noUnclassified n && noUnclassifiedSlots rest
  | .hole :: rest => noUnclassifiedSlots rest
  | .undef :: rest => noUnclassifiedSlots rest
end

/-- The descent shared by the three editing functions: `leaf` acts on what
the path addresses, every level above is rebuilt around the result. -/
def editAt (leaf : Option Node → Except JSError Node) :
    Option Node → List Nat → Except JSError Node
  | node, [] => leaf node
  | none, _ :: _ => .error .typeError
  | some n, index :: rest =>
    match n.children with
    | none => .error .typeError
    | some cs =>
      match editAt leaf (arrayGet (spreadArray cs) index) rest with
      | .error e => .error e
      | .ok r => .ok (.mk n.name n.data (some (arraySet (spreadArray cs) index r)))

/-- What an edit does to the addressed node itself (the empty path). -/
def leafOf (e : Edit) (node : Option Node) : Except JSError Node :=
  match e with
  | .rename newName => updateNodeName node [] newName
  | .setData newData => updateNodeData node [] newData
  | .addChild => addChildNode node []

/-- Slot by slot, `ds` holds the exports of the nodes held by `cs`: the two
arrays have the same length and position `k` of `ds` is the export of the
node at position `k` of `cs`. -/
def ExportedSlots (cs ds : List (Slot Node)) : Prop :=
  List.Forall₂ (fun s d => ∃ c e, s = Slot.node c ∧ d = Slot.node e ∧ extractTreeData c = .ok e)
    cs ds

/-- Node `a1` is node `a` off the child at index `i`: same name, same data,
as many children, and every index other than `i` reads the same child. -/
def SameOffSpine (a a1 : Node) (i : Nat) : Prop :=
  a1.name = a.name ∧ a1.data = a.data ∧
    ∃ cs cs1, a.children = some cs ∧ a1.children = some cs1 ∧ cs1.length = cs.length ∧
      ∀ j, j ≠ i → arrayGet cs1 j = arrayGet cs j

/-- Scenario A: `{ name: 'root', children: [{ name: 'a', data: 'x' }] }`. -/
def scenarioA : Node :=
  .mk (.str "root") .undefined (some [.node (.mk (.str "a") (.str "x") none)])

/-- A node that shows as interior (its data is the empty string) and has one
child: `{ name: 'root', data: '', children: [{ name: 'a', data: 'x' }] }`. -/
def emptyDataInterior : Node :=
  .mk (.str "root") (.str "") (some [.node (.mk (.str "a") (.str "x") none)])

/-- Three calls on the starter tree, each at a path of the tree it meets. -/
def sampleEdits : List (Edit × List Nat) :=
  [(.addChild, [1]), (.setData (.str "v"), [0]), (.rename "top", []), (.addChild, [1, 0])]

/-! ## Basic facts about the array primitives -/

@[simp]
theorem name_mk (a b : JSVal) (c : Option (List (Slot Node))) :
    (Node.mk a b c).name = a := rfl

@[simp]
theorem data_mk (a b : JSVal) (c : Option (List (Slot Node))) :
    (Node.mk a b c).data = b := rfl

@[simp]
theorem children_mk (a b : JSVal) (c : Option (List (Slot Node))) :
    (Node.mk a b c).children = c := rfl

theorem node_eta (n : Node) : Node.mk n.name n.data n.children = n := by
  cases n; rfl

@[simp]
theorem spreadArray_length (arr : List (Slot Node)) :
    (spreadArray arr).length = arr.length := by
  simp [spreadArray]

theorem arrayGet_eq_some {arr : List (Slot Node)} {i : Nat} {c : Node} :
    arrayGet arr i = some c ↔ arr[i]? = some (.node c) := by
  unfold arrayGet
  split
  · next n h => simp [h]
  · next h =>
    constructor
    · intro h1; cases h1
    · intro h1; exact absurd h1 (h c)

theorem arrayGet_lt {arr : List (Slot Node)} {i : Nat} {c : Node}
    (h : arrayGet arr i = some c) : i < arr.length := by
  rw [arrayGet_eq_some] at h
  by_contra hlt
  rw [List.getElem?_eq_none (by omega)] at h
  cases h

@[simp]
theorem arrayGet_spreadArray (arr : List (Slot Node)) (i : Nat) :
    arrayGet (spreadArray arr) i = arrayGet arr i := by
  unfold arrayGet spreadArray
  rw [List.getElem?_map]
  cases h : arr[i]? with
  | none => rfl
  | some s => cases s <;> rfl

theorem arraySet_length {arr : List (Slot Node)} {i : Nat} (h : i < arr.length) (v : Node) :
    (arraySet arr i v).length = arr.length := by
  simp [arraySet, h]

theorem arrayGet_arraySet_self {arr : List (Slot Node)} {i : Nat} (h : i < arr.length)
    (v : Node) : arrayGet (arraySet arr i v) i = some v := by
  rw [arrayGet_eq_some]
  simp [arraySet, h]

theorem arrayGet_arraySet_ne {arr : List (Slot Node)} {i j : Nat} (h : i < arr.length)
    (hij : j ≠ i) (v : Node) : arrayGet (arraySet arr i v) j = arrayGet arr j := by
  unfold arrayGet
  simp [arraySet, h, List.getElem?_set_ne (Ne.symm hij)]

theorem mem_arraySet {arr : List (Slot Node)} {i : Nat} {v c : Node}
    (h : Slot.node c ∈ arraySet (spreadArray arr) i v) (hi : i < arr.length) :
    c = v ∨ Slot.node c ∈ arr := by
  simp only [arraySet, spreadArray_length, hi, if_true] at h
  rcases List.mem_or_eq_of_mem_set h with h1 | h1
  · right
    simp only [spreadArray, List.mem_map] at h1
    obtain ⟨s, hs, he⟩ := h1
    cases s <;> simp [spreadSlot] at he
    subst he
    exact hs
  · left
    cases h1
    rfl

/-! ## The three editing functions share one descent -/

theorem updateNodeName_eq_editAt (newName : String) (path : List Nat) :
    ∀ node, updateNodeName node path newName = editAt (leafOf (.rename newName)) node path := by
  induction path with
  | nil => intro node; simp [editAt, leafOf]
  | cons i rest ih =>
    intro node
    cases node with
    | none => simp [updateNodeName, editAt]
    | some n =>
      simp only [updateNodeName, editAt]
      cases n.children with
      | none => rfl
      | some cs => simp only [ih]

theorem updateNodeData_eq_editAt (newData : JSVal) (path : List Nat) :
    ∀ node, updateNodeData node path newData = editAt (leafOf (.setData newData)) node path := by
  induction path with
  | nil => intro node; simp [editAt, leafOf]
  | cons i rest ih =>
    intro node
    cases node with
    | none => simp [updateNodeData, editAt]
    | some n =>
      simp only [updateNodeData, editAt]
      cases n.children with
      | none => rfl
      | some cs => simp only [ih]

theorem addChildNode_eq_editAt (path : List Nat) :
    ∀ node, addChildNode node path = editAt (leafOf .addChild) node path := by
  induction path with
  | nil => intro node; simp [editAt, leafOf]
  | cons i rest ih =>
    intro node
    cases node with
    | none => simp [addChildNode, editAt]
    | some n =>
      simp only [addChildNode, editAt]
      cases n.children with
      | none => rfl
      | some cs => simp only [ih]

theorem applyEdit_eq_editAt (e : Edit) (T : Node) (path : List Nat) :
    applyEdit e T path = editAt (leafOf e) (some T) path := by
  cases e with
  | rename s => exact updateNodeName_eq_editAt s path (some T)
  | setData d => exact updateNodeData_eq_editAt d path (some T)
  | addChild => exact addChildNode_eq_editAt path (some T)

/-- One level of the descent at an index that holds a node. -/
theorem editAt_cons {leaf : Option Node → Except JSError Node} {n c : Node}
    {cs : List (Slot Node)} {i : Nat} {rest : List Nat}
    (hc : n.children = some cs) (hi : arrayGet cs i = some c) :
    editAt leaf (some n) (i :: rest) =
      match editAt leaf (some c) rest with
      | .error e => .error e
      | .ok r => .ok (.mk n.name n.data (some (arraySet (spreadArray cs) i r))) := by
  simp only [editAt, hc, arrayGet_spreadArray, hi]

/-- At a path that addresses a node, the descent succeeds when `leaf` does,
and the result holds the value of `leaf` at that path. -/
theorem editAt_nodeAt {leaf : Option Node → Except JSError Node} (path : List Nat) :
    ∀ (n t r0 : Node), nodeAt n path = some t → leaf (some t) = .ok r0 →
      ∃ r, editAt leaf (some n) path = .ok r ∧ nodeAt r path = some r0 := by
  induction path with
  | nil =>
    intro n t r0 h hl
    simp only [nodeAt, Option.some.injEq] at h
    subst h
    exact ⟨r0, by simpa [editAt] using hl, rfl⟩
  | cons i rest ih =>
    intro n t r0 h hl
    simp only [nodeAt] at h
    cases hc : n.children with
    | none => simp [hc] at h
    | some cs =>
      simp only [hc] at h
      cases hi : arrayGet cs i with
      | none => simp [hi] at h
      | some c =>
        simp only [hi] at h
        obtain ⟨r, hr, hr2⟩ := ih c t r0 h hl
        refine ⟨.mk n.name n.data (some (arraySet (spreadArray cs) i r)), ?_, ?_⟩
        · rw [editAt_cons hc hi, hr]
        · have hlt : i < (spreadArray cs).length := by
            simpa using arrayGet_lt hi
          simp only [nodeAt, children_mk, arrayGet_arraySet_self hlt]
          exact hr2

/-- At a path that addresses a node whose data is `undefined` or `null`,
`addChildNode` appends: the children of the node at that path are the old
children in order (none when there was no array), then the new child. -/
theorem addChildNode_appends (T : Node) (path : List Nat) (t : Node)
    (ht : nodeAt T path = some t) (hd : t.data = .undefined ∨ t.data = .null) :
    ∃ T1, addChildNode (some T) path = .ok T1 ∧
      nodeAt T1 path =
        some (.mk t.name t.data (some (spreadArray (t.children.getD []) ++ [.node newChild]))) := by
  rw [addChildNode_eq_editAt]
  apply editAt_nodeAt path T t _ ht
  rcases hd with hd | hd <;> simp [leafOf, addChildNode, hd, isDefined]

/-! ## Mutual exclusivity of data and children -/

theorem exclusiveSlots_iff (cs : List (Slot Node)) :
    exclusiveSlots cs = true ↔ ∀ c, Slot.node c ∈ cs → exclusive c = true := by
  induction cs with
  | nil => simp [exclusiveSlots]
  | cons s rest ih =>
    cases s with
    | hole => simp [exclusiveSlots, ih]
    | undef => simp [exclusiveSlots, ih]
    | node n => simp [exclusiveSlots, ih]

theorem exclusive_iff (n : Node) :
    exclusive n = true ↔
      ∀ cs, n.children = some cs →
        (cs ≠ [] → isNonEmpty n.data = false) ∧ ∀ c, Slot.node c ∈ cs → exclusive c = true := by
  cases n with
  | mk name data children =>
    cases children with
    | none => simp [exclusive]
    | some cs =>
      cases cs with
      | nil => simp [exclusive]
      | cons s rest =>
        simp only [exclusive, Bool.and_eq_true, Bool.not_eq_true', exclusiveSlots_iff,
          children_mk, Option.some.injEq, data_mk]
        constructor
        · rintro ⟨h1, h2⟩ cs rfl
          exact ⟨fun _ => h1, h2⟩
        · intro h
          obtain ⟨h1, h2⟩ := h _ rfl
          exact ⟨h1 (by simp), h2⟩

theorem exclusive_newChild : exclusive newChild = true := rfl

/-- Each edit, applied to the addressed node itself, returns a node. -/
theorem leafOf_some (e : Edit) (t : Node) : ∃ r0, leafOf e (some t) = .ok r0 := by
  cases e with
  | rename s => exact ⟨_, rfl⟩
  | setData v =>
    simp only [leafOf, updateNodeData]
    split <;> exact ⟨_, rfl⟩
  | addChild =>
    simp only [leafOf, addChildNode]
    split <;> exact ⟨_, rfl⟩

theorem isNonEmpty_of_not_isDefined {d : JSVal} (h : isDefined d = false) :
    isNonEmpty d = false := by
  cases d <;> simp_all [isDefined, isNonEmpty]

theorem exclusive_leafOf (e : Edit) (t r0 : Node) (ht : exclusive t = true)
    (h : leafOf e (some t) = .ok r0) : exclusive r0 = true := by
  rw [exclusive_iff] at ht ⊢
  cases e with
  | rename s =>
    simp only [leafOf, updateNodeName, spread, Except.ok.injEq] at h
    subst h
    simpa using ht
  | setData v =>
    simp only [leafOf, updateNodeData, spread] at h
    split at h
    · simp only [Except.ok.injEq] at h
      subst h
      simp
    · simp only [Except.ok.injEq] at h
      subst h
      intro cs hcs
      simp only [children_mk] at hcs
      refine ⟨fun _ => ?_, (ht cs hcs).2⟩
      cases v with
      | undefined => rfl
      | null => rfl
      | str s =>
        by_cases hs : s = ""
        · simp [orNull, hs, isNonEmpty]
        · simp_all [isNonEmpty]
  | addChild =>
    simp only [leafOf, addChildNode] at h
    split at h
    · simp only [Except.ok.injEq] at h
      subst h
      intro cs hcs
      simp only [children_mk, Option.some.injEq] at hcs
      subst hcs
      refine ⟨fun _ => rfl, ?_⟩
      intro c hc
      simp only [List.mem_singleton, Slot.node.injEq] at hc
      subst hc
      exact exclusive_newChild
    · next hd =>
      simp only [Except.ok.injEq] at h
      subst h
      intro cs hcs
      simp only [children_mk, Option.some.injEq] at hcs
      subst hcs
      refine ⟨fun _ => isNonEmpty_of_not_isDefined (by simpa using hd), ?_⟩
      intro c hc
      simp only [List.mem_append, List.mem_singleton, Slot.node.injEq] at hc
      rcases hc with hc | hc
      · simp only [spreadArray, List.mem_map] at hc
        obtain ⟨s, hs, he⟩ := hc
        cases s <;> simp [spreadSlot] at he
        subst he
        cases hch : t.children with
        | none => simp [hch] at hs
        | some cs0 =>
          simp only [hch, Option.getD_some] at hs
          exact (ht cs0 hch).2 _ hs
      · subst hc
        exact exclusive_newChild

/-- The descent keeps the invariant when `leaf` does. -/
theorem exclusive_editAt {leaf : Option Node → Except JSError Node}
    (hleaf : ∀ t r0, exclusive t = true → leaf (some t) = .ok r0 → exclusive r0 = true)
    (path : List Nat) :
    ∀ (n t r : Node), nodeAt n path = some t → exclusive n = true →
      editAt leaf (some n) path = .ok r → exclusive r = true := by
  induction path with
  | nil =>
    intro n t r _ hn hr
    exact hleaf n r hn (by simpa [editAt] using hr)
  | cons i rest ih =>
    intro n t r h hn hr
    simp only [nodeAt] at h
    cases hc : n.children with
    | none => simp [hc] at h
    | some cs =>
      simp only [hc] at h
      cases hi : arrayGet cs i with
      | none => simp [hi] at h
      | some c =>
        simp only [hi] at h
        rw [editAt_cons hc hi] at hr
        have hlt : i < cs.length := arrayGet_lt hi
        obtain ⟨hn1, hn2⟩ := (exclusive_iff n).1 hn cs hc
        have hcmem : Slot.node c ∈ cs := by
          have := arrayGet_eq_some.1 hi
          exact List.getElem?_mem this
        cases hr1 : editAt leaf (some c) rest with
        | error e => simp [hr1] at hr
        | ok r1 =>
          simp only [hr1, Except.ok.injEq] at hr
          subst hr
          have hr1x : exclusive r1 = true := ih c t r1 h (hn2 c hcmem) hr1
          rw [exclusive_iff]
          intro cs1 hcs1
          simp only [children_mk, Option.some.injEq] at hcs1
          subst hcs1
          refine ⟨fun _ => hn1 (List.ne_nil_of_mem hcmem), ?_⟩
          intro c1 hc1
          rcases mem_arraySet hc1 hlt with h1 | h1
          · subst h1; exact hr1x
          · exact hn2 c1 h1

theorem applyEdit_ok (e : Edit) (T : Node) (path : List Nat) (h : nodeAt T path ≠ none) :
    ∃ T1, applyEdit e T path = .ok T1 := by
  cases ht : nodeAt T path with
  | none => exact absurd ht h
  | some t =>
    obtain ⟨r0, hr0⟩ := leafOf_some e t
    obtain ⟨r, hr, _⟩ := editAt_nodeAt path T t r0 ht hr0
    exact ⟨r, by rw [applyEdit_eq_editAt]; exact hr⟩

theorem exclusive_applyEdit (e : Edit) (T T1 : Node) (path : List Nat)
    (h : nodeAt T path ≠ none) (hT : exclusive T = true) (hr : applyEdit e T path = .ok T1) :
    exclusive T1 = true := by
  cases ht : nodeAt T path with
  | none => exact absurd ht h
  | some t =>
    rw [applyEdit_eq_editAt] at hr
    exact exclusive_editAt (exclusive_leafOf e) path T t T1 ht hT hr

/-! ## Paths that address no node -/

theorem arrayGet_arraySet_same (arr : List (Slot Node)) (i : Nat) (v : Node) :
    arrayGet (arraySet arr i v) i = some v := by
  by_cases h : i < arr.length
  · exact arrayGet_arraySet_self h v
  · rw [arrayGet_eq_some]
    have hlen : (arr ++ List.replicate (i - arr.length) Slot.hole).length = i := by
      simp only [List.length_append, List.length_replicate]
      omega
    simp only [arraySet, h, if_false]
    rw [List.getElem?_append_right (by omega), hlen]
    simp

theorem editAt_broken (leaf : Option Node → Except JSError Node) (path : List Nat) :
    ∀ n, pathStatus n path = .broken → editAt leaf (some n) path = .error .typeError := by
  induction path with
  | nil => intro n h; simp [pathStatus] at h
  | cons i rest ih =>
    intro n h
    simp only [pathStatus] at h
    cases hc : n.children with
    | none => simp [editAt, hc]
    | some cs =>
      simp only [hc] at h
      cases hi : arrayGet cs i with
      | some c =>
        simp only [hi] at h
        rw [editAt_cons hc hi, ih c h]
      | none =>
        simp only [hi] at h
        cases rest with
        | nil => simp at h
        | cons k rest1 => simp [editAt, hc, hi]

theorem editAt_lastMissing (leaf : Option Node → Except JSError Node) (path : List Nat) :
    ∀ n, pathStatus n path = .lastMissing →
      (∀ e, leaf none = .error e → editAt leaf (some n) path = .error e) ∧
      (∀ r0, leaf none = .ok r0 →
        ∃ r, editAt leaf (some n) path = .ok r ∧ nodeAt r path = some r0) := by
  induction path with
  | nil => intro n h; simp [pathStatus] at h
  | cons i rest ih =>
    intro n h
    simp only [pathStatus] at h
    cases hc : n.children with
    | none => simp [hc] at h
    | some cs =>
      simp only [hc] at h
      cases hi : arrayGet cs i with
      | some c =>
        simp only [hi] at h
        obtain ⟨h1, h2⟩ := ih c h
        constructor
        · intro e he
          rw [editAt_cons hc hi, h1 e he]
        · intro r0 hr0
          obtain ⟨r, hr, hr2⟩ := h2 r0 hr0
          refine ⟨.mk n.name n.data (some (arraySet (spreadArray cs) i r)), ?_, ?_⟩
          · rw [editAt_cons hc hi, hr]
          · simp only [nodeAt, children_mk, arrayGet_arraySet_same]
            exact hr2
      | none =>
        simp only [hi] at h
        cases rest with
        | cons k rest1 => simp at h
        | nil =>
          constructor
          · intro e he
            simp [editAt, hc, hi, he]
          · intro r0 hr0
            refine ⟨.mk n.name n.data (some (arraySet (spreadArray cs) i r0)), ?_, ?_⟩
            · simp [editAt, hc, hi, hr0]
            · simp [nodeAt, arrayGet_arraySet_same]

/-! ## Export -/

/-- The data field of the exported object. -/
theorem exportData_idem (data : JSVal) :
    (if isNonEmpty (if isNonEmpty data then data else .undefined) = true
      then (if isNonEmpty data then data else .undefined) else JSVal.undefined) =
      (if isNonEmpty data then data else .undefined) := by
  by_cases h : isNonEmpty data = true
  · simp only [if_pos h]
  · simp only [if_neg h]
    rfl

theorem extractTreeData_mk (name data : JSVal) (children : Option (List (Slot Node))) :
    extractTreeData (.mk name data children) =
      match children with
      | none => .ok (.mk name (if isNonEmpty data then data else .undefined) none)
      | some [] => .ok (.mk name (if isNonEmpty data then data else .undefined) none)
      | some (c :: cs) =>
        match extractChildren (c :: cs) with
        | .error e => .error e
        | .ok r => .ok (.mk name (if isNonEmpty data then data else .undefined) (some r)) := by
  cases children with
  | none => simp [extractTreeData]
  | some cs =>
    cases cs with
    | nil => simp [extractTreeData]
    | cons c cs => simp [extractTreeData]

theorem extractChildren_length :
    ∀ (cs ds : List (Slot Node)), extractChildren cs = .ok ds → ds.length = cs.length
  | [], ds, h => by
    simp only [extractChildren, Except.ok.injEq] at h
    subst h; rfl
  | .hole :: rest, ds, h => by
    simp only [extractChildren] at h
    cases hr : extractChildren rest with
    | error e => simp [hr] at h
    | ok r =>
      simp only [hr, Except.ok.injEq] at h
      subst h
      simp [extractChildren_length rest r hr]
  | .undef :: rest, ds, h => by
    simp [extractChildren] at h
  | .node n :: rest, ds, h => by
    simp only [extractChildren] at h
    cases hn : extractTreeData n with
    | error e => simp [hn] at h
    | ok d =>
      simp only [hn] at h
      cases hr : extractChildren rest with
      | error e => simp [hr] at h
      | ok r =>
        simp only [hr, Except.ok.injEq] at h
        subst h
        simp [extractChildren_length rest r hr]

mutual
theorem extractTreeData_idem :
    ∀ (T D : Node), extractTreeData T = .ok D → extractTreeData D = .ok D
  | .mk name data none, D, h => by
    simp only [extractTreeData_mk, Except.ok.injEq] at h
    subst h
    simp only [extractTreeData_mk, exportData_idem]
  | .mk name data (some []), D, h => by
    simp only [extractTreeData_mk, Except.ok.injEq] at h
    subst h
    simp only [extractTreeData_mk, exportData_idem]
  | .mk name data (some (c :: cs)), D, h => by
    simp only [extractTreeData_mk] at h
    cases hr : extractChildren (c :: cs) with
    | error e => simp [hr] at h
    | ok r =>
      simp only [hr, Except.ok.injEq] at h
      subst h
      have hlen := extractChildren_length _ _ hr
      have hidem := extractChildren_idem (c :: cs) r hr
      cases r with
      | nil => simp at hlen
      | cons d ds =>
        simp only [extractTreeData_mk, hidem, exportData_idem]
theorem extractChildren_idem :
    ∀ (cs ds : List (Slot Node)), extractChildren cs = .ok ds → extractChildren ds = .ok ds
  | [], ds, h => by
    simp only [extractChildren, Except.ok.injEq] at h
    subst h; rfl
  | .hole :: rest, ds, h => by
    simp only [extractChildren] at h
    cases hr : extractChildren rest with
    | error e => simp [hr] at h
    | ok r =>
      simp only [hr, Except.ok.injEq] at h
      subst h
      simp only [extractChildren, extractChildren_idem rest r hr]
  | .undef :: rest, ds, h => by
    simp [extractChildren] at h
  | .node n :: rest, ds, h => by
    simp only [extractChildren] at h
    cases hn : extractTreeData n with
    | error e => simp [hn] at h
    | ok d =>
      simp only [hn] at h
      cases hr : extractChildren rest with
      | error e => simp [hr] at h
      | ok r =>
        simp only [hr, Except.ok.injEq] at h
        subst h
        simp only [extractChildren, extractTreeData_idem n d hn, extractChildren_idem rest r hr]
end

mutual
theorem extractTreeData_total :
    ∀ (T : Node), isTree T = true → ∃ D, extractTreeData T = .ok D
  | .mk name data none, _ => by
    simp only [extractTreeData_mk]
    exact ⟨_, rfl⟩
  | .mk name data (some []), _ => by
    simp only [extractTreeData_mk]
    exact ⟨_, rfl⟩
  | .mk name data (some (c :: cs)), h => by
    simp only [isTree] at h
    obtain ⟨ds, hds, _⟩ := extractChildren_total (c :: cs) h
    simp only [extractTreeData_mk, hds]
    exact ⟨_, rfl⟩
theorem extractChildren_total :
    ∀ (cs : List (Slot Node)), isTreeSlots cs = true →
      ∃ ds, extractChildren cs = .ok ds ∧ ExportedSlots cs ds
  | [], _ => ⟨[], rfl, List.Forall₂.nil⟩
  | .hole :: rest, h => by simp [isTreeSlots] at h
  | .undef :: rest, h => by simp [isTreeSlots] at h
  | .node n :: rest, h => by
    simp only [isTreeSlots, Bool.and_eq_true] at h
    obtain ⟨d, hd⟩ := extractTreeData_total n h.1
    obtain ⟨ds, hds, hrel⟩ := extractChildren_total rest h.2
    refine ⟨.node d :: ds, by simp only [extractChildren, hd, hds], ?_⟩
    exact List.Forall₂.cons ⟨n, d, rfl, rfl, hd⟩ hrel
end

/-! ## What an edit leaves alone -/

theorem nodeAt_cons {n : Node} {i : Nat} {rest : List Nat} (h : nodeAt n (i :: rest) ≠ none) :
    ∃ cs c, n.children = some cs ∧ arrayGet cs i = some c ∧
      nodeAt n (i :: rest) = nodeAt c rest := by
  simp only [nodeAt] at h ⊢
  cases hc : n.children with
  | none => simp [hc] at h
  | some cs =>
    cases hi : arrayGet cs i with
    | none => simp [hc, hi] at h
    | some c => exact ⟨cs, c, rfl, hi, by simp only [hi]⟩

theorem editAt_frame (leaf : Option Node → Except JSError Node) (i : Nat) (R : List Nat)
    (Q : List Nat) :
    ∀ (n r : Node), nodeAt n (Q ++ i :: R) ≠ none →
      editAt leaf (some n) (Q ++ i :: R) = .ok r →
      ∃ a a1, nodeAt n Q = some a ∧ nodeAt r Q = some a1 ∧ SameOffSpine a a1 i := by
  induction Q with
  | nil =>
    intro n r hv hr
    simp only [List.nil_append] at hv hr
    obtain ⟨cs, c, hc, hi, _⟩ := nodeAt_cons hv
    rw [editAt_cons hc hi] at hr
    cases hr1 : editAt leaf (some c) R with
    | error e => simp [hr1] at hr
    | ok r1 =>
      simp only [hr1, Except.ok.injEq] at hr
      subst hr
      have hlt : i < (spreadArray cs).length := by simpa using arrayGet_lt hi
      refine ⟨n, _, rfl, rfl, rfl, rfl, cs, _, hc, rfl, ?_, ?_⟩
      · simpa using arraySet_length hlt r1
      · intro j hj
        rw [arrayGet_arraySet_ne hlt hj, arrayGet_spreadArray]
  | cons q Q1 ih =>
    intro n r hv hr
    simp only [List.cons_append] at hv hr
    obtain ⟨cs, c, hc, hi, hn⟩ := nodeAt_cons hv
    rw [editAt_cons hc hi] at hr
    cases hr1 : editAt leaf (some c) (Q1 ++ i :: R) with
    | error e => simp [hr1] at hr
    | ok r1 =>
      simp only [hr1, Except.ok.injEq] at hr
      subst hr
      have hlt : q < (spreadArray cs).length := by simpa using arrayGet_lt hi
      obtain ⟨a, a1, ha, ha1, hs⟩ := ih c r1 (by rw [← hn]; exact hv) hr1
      refine ⟨a, a1, ?_, ?_, hs⟩
      · simp only [nodeAt, hc, hi]
        exact ha
      · simp only [nodeAt, children_mk, arrayGet_arraySet_self hlt]
        exact ha1

theorem isNonEmpty_iff (d : JSVal) :
    isNonEmpty d = true ↔ d ≠ .undefined ∧ d ≠ .null ∧ d ≠ .str "" := by
  cases d <;> simp [isNonEmpty]

theorem isNonEmpty_eq_false_iff (d : JSVal) :
    isNonEmpty d = false ↔ d = .undefined ∨ d = .null ∨ d = .str "" := by
  cases d <;> simp [isNonEmpty]

/-! ## The properties of the specification -/

/-- C1: mutual exclusivity is an invariant of the editor.  From a tree in
which no node has both non-empty data and a non-empty children array, every
finite sequence of `updateNodeName`, `updateNodeData` and `addChildNode` calls,
each at a path that addresses a node of the current tree, runs to the end and
returns a tree in which again no node has both. -/
theorem exclusive_applyEdits (T : Node) (edits : List (Edit × List Nat))
    (hT : exclusive T = true) (hv : validEdits T edits = true) :
    ∃ T1, applyEdits T edits = .ok T1 ∧ exclusive T1 = true := by
  induction edits generalizing T with
  | nil => exact ⟨T, rfl, hT⟩
  | cons ep rest ih =>
    obtain ⟨e, path⟩ := ep
    simp only [validEdits, Bool.and_eq_true] at hv
    have hp : nodeAt T path ≠ none := by
      intro h0
      rw [h0] at hv
      simp at hv
    obtain ⟨T1, h1⟩ := applyEdit_ok e T path hp
    have hv2 := hv.2
    simp only [h1] at hv2
    obtain ⟨T2, h2, h3⟩ := ih T1 (exclusive_applyEdit e T T1 path hp hT h1) hv2
    exact ⟨T2, by simp only [applyEdits, h1, h2], h3⟩

theorem exclusive_applyEdits_witness :
    exclusive getDefaultTree = true ∧ validEdits getDefaultTree sampleEdits = true ∧
      ∃ T1, applyEdits getDefaultTree sampleEdits = .ok T1 ∧ exclusive T1 = true :=
  ⟨rfl, rfl, exclusive_applyEdits getDefaultTree sampleEdits rfl rfl⟩

/-- C2 (as stated, refuted): `updateNodeName(root, [5], "x")` on the starter
tree, whose root has 2 children, does not fail: it returns a new tree whose
root has 6 children positions, holes at 2, 3 and 4 and a node holding only the
name `"x"` at 5. -/
theorem rename_out_of_range_returns_tree :
    updateNodeName (some getDefaultTree) [5] "x" =
      .ok (.mk (.str "root") .undefined (some [
        .node (.mk (.str "child1") .undefined (some [
          .node (.mk (.str "child1-child1") (.str "c1-c1 Hello") none),
          .node (.mk (.str "child1-child2") (.str "c1-c2 JS") none)])),
        .node (.mk (.str "child2") (.str "c2 World") none),
        .hole, .hole, .hole,
        .node (.mk (.str "x") .undefined none)])) := rfl

/-- C2 (amended): the code has no `InvalidPath` result.  When a level of the
path has no children array, or an index other than the last holds no node, the
three functions throw a `TypeError` and return no tree.  When only the last
index holds no node, `addChildNode` throws a `TypeError`, while
`updateNodeName` and `updateNodeData` return a new tree that holds, at that
path, a new node with only the name, respectively only the data. -/
theorem invalid_path_behaviour (T : Node) (path : List Nat) :
    (pathStatus T path = .broken →
      ∀ (newName : String) (newData : JSVal),
        updateNodeName (some T) path newName = .error .typeError ∧
        updateNodeData (some T) path newData = .error .typeError ∧
        addChildNode (some T) path = .error .typeError) ∧
    (pathStatus T path = .lastMissing →
      addChildNode (some T) path = .error .typeError ∧
      ∀ (newName : String) (newData : JSVal),
        (∃ T1, updateNodeName (some T) path newName = .ok T1 ∧
          nodeAt T1 path = some (.mk (.str newName) .undefined none)) ∧
        (∃ T2, updateNodeData (some T) path newData = .ok T2 ∧
          nodeAt T2 path = some (.mk .undefined (orNull newData) none))) := by
  constructor
  · intro h newName newData
    rw [updateNodeName_eq_editAt, updateNodeData_eq_editAt, addChildNode_eq_editAt]
    exact ⟨editAt_broken _ path T h, editAt_broken _ path T h, editAt_broken _ path T h⟩
  · intro h
    constructor
    · rw [addChildNode_eq_editAt]
      exact (editAt_lastMissing _ path T h).1 _ rfl
    · intro newName newData
      rw [updateNodeName_eq_editAt, updateNodeData_eq_editAt]
      constructor
      · exact (editAt_lastMissing _ path T h).2 _ rfl
      · refine (editAt_lastMissing _ path T h).2 _ ?_
        simp only [leafOf, updateNodeData, spread, name_mk, children_mk]
        split <;> rfl

theorem invalid_path_behaviour_witness :
    (pathStatus getDefaultTree [1, 0] = .broken ∧
      pathStatus getDefaultTree [5, 0] = .broken ∧
      pathStatus getDefaultTree [5] = .lastMissing) ∧
    (updateNodeName (some getDefaultTree) [1, 0] "x" = .error .typeError ∧
      updateNodeData (some getDefaultTree) [5, 0] (.str "v") = .error .typeError ∧
      addChildNode (some getDefaultTree) [5] = .error .typeError) :=
  ⟨⟨rfl, rfl, rfl⟩,
    ((invalid_path_behaviour getDefaultTree [1, 0]).1 rfl "x" .null).1,
    ((invalid_path_behaviour getDefaultTree [5, 0]).1 rfl "x" (.str "v")).2.1,
    ((invalid_path_behaviour getDefaultTree [5]).2 rfl).1⟩

/-- C3 (as stated, refuted): `updateNodeName(root, [0], "")` on the starter
tree returns a tree whose node at `[0]` is named `""`; the name before was
`"child1"`. -/
theorem rename_empty_name_applied :
    ∃ T1, updateNodeName (some getDefaultTree) [0] "" = .ok T1 ∧
      (nodeAt T1 [0]).map Node.name = some (.str "") ∧
      (nodeAt getDefaultTree [0]).map Node.name = some (.str "child1") :=
  ⟨_, rfl, rfl, rfl⟩

/-- C3 (amended): the empty name is refused by the callers, not by
`updateNodeName` and not with an `InvalidName` value.  When the edited name is
empty after trimming, `handleNameBlur` and `handleNameKeyPress` on `Enter` do
not call `updateNodeName`: the tree stays the same tree, so every node keeps
its name. -/
theorem empty_name_handlers_keep_tree (st : EditorState) (node : Node) (path : List Nat)
    (editName : String) (he : st.editName = .str editName) (ht : jsTrim editName = "") :
    (∃ st1, handleNameBlur st node path = .ok st1 ∧ st1.tagTree = st.tagTree) ∧
      handleNameKeyPress st node path "Enter" = .ok st := by
  constructor
  · refine ⟨⟨st.tagTree, node.name, false⟩, ?_, rfl⟩
    simp [handleNameBlur, he, ht]
  · simp [handleNameKeyPress, he, ht]

theorem empty_name_handlers_keep_tree_witness :
    jsTrim " \t " = "" ∧
      (∃ st1, handleNameBlur ⟨scenarioA, .str " \t ", true⟩ scenarioA [] = .ok st1 ∧
        st1.tagTree = scenarioA) ∧
      handleNameKeyPress ⟨scenarioA, .str " \t ", true⟩ scenarioA [] "Enter" =
        .ok ⟨scenarioA, .str " \t ", true⟩ :=
  ⟨by decide,
    empty_name_handlers_keep_tree ⟨scenarioA, .str " \t ", true⟩ scenarioA [] " \t " rfl
      (by decide)⟩

/-- C4: at a path that addresses a node with data (a string), `addChildNode`
returns a tree whose node at that path has the same name, no data, and a
children array with exactly one entry, the new child
`{ name: 'New Child', data: 'Data' }`.  Scenario A: on
`{ name: 'root', children: [{ name: 'a', data: 'x' }] }` at `[0]` the result is
`{ name: 'root', children: [{ name: 'a', children: [<new child>] }] }`. -/
theorem addChild_leaf_converts (T : Node) (path : List Nat) (t : Node) (d : String)
    (ht : nodeAt T path = some t) (hd : t.data = .str d) :
    (∃ T1, addChildNode (some T) path = .ok T1 ∧
      nodeAt T1 path = some (.mk t.name .undefined (some [.node newChild]))) ∧
    addChildNode (some scenarioA) [0] =
      .ok (.mk (.str "root") .undefined (some [
        .node (.mk (.str "a") .undefined (some [
          .node (.mk (.str "New Child") (.str "Data") none)]))])) := by
  refine ⟨?_, rfl⟩
  rw [addChildNode_eq_editAt]
  apply editAt_nodeAt path T t _ ht
  simp [leafOf, addChildNode, hd, isDefined]

theorem addChild_leaf_converts_witness :
    nodeAt getDefaultTree [0, 1] = some (.mk (.str "child1-child2") (.str "c1-c2 JS") none) ∧
      ∃ T1, addChildNode (some getDefaultTree) [0, 1] = .ok T1 ∧
        nodeAt T1 [0, 1] = some (.mk (.str "child1-child2") .undefined (some [.node newChild])) :=
  ⟨rfl, (addChild_leaf_converts getDefaultTree [0, 1]
    (.mk (.str "child1-child2") (.str "c1-c2 JS") none) "c1-c2 JS" rfl rfl).1⟩

/-- C5 (the code at the failing input): on
`{ name: 'root', data: '', children: [{ name: 'a', data: 'x' }] }`, a node whose
data is the empty string and which has one child, `addChildNode` at the empty
path returns a node whose only child is the new child: the child `a` is gone. -/
theorem addChild_empty_string_data_drops_children :
    addChildNode (some emptyDataInterior) [] =
      .ok (.mk (.str "root") .undefined (some [
        .node (.mk (.str "New Child") (.str "Data") none)])) := rfl

/-- C6: at a path that addresses a node, `updateNodeData` with a non-empty
string returns a tree whose node at that path has the same name, the new data
and no children array, whatever children it had.  Scenario B: on the starter
tree, whose root has children, at the empty path with `"hello"` the result is
`{ name: 'root', data: 'hello' }`. -/
theorem setData_makes_leaf (T : Node) (path : List Nat) (t : Node) (newValue : String)
    (ht : nodeAt T path = some t) (hv : newValue ≠ "") :
    (∃ T1, updateNodeData (some T) path (.str newValue) = .ok T1 ∧
      nodeAt T1 path = some (.mk t.name (.str newValue) none)) ∧
    updateNodeData (some getDefaultTree) [] (.str "hello") =
      .ok (.mk (.str "root") (.str "hello") none) := by
  refine ⟨?_, rfl⟩
  rw [updateNodeData_eq_editAt]
  apply editAt_nodeAt path T t _ ht
  simp [leafOf, updateNodeData, spread, isNonEmpty, orNull, hv]

theorem setData_makes_leaf_witness :
    nodeAt getDefaultTree [1] = some (.mk (.str "child2") (.str "c2 World") none) ∧ "v" ≠ "" ∧
      ∃ T1, updateNodeData (some getDefaultTree) [1] (.str "v") = .ok T1 ∧
        nodeAt T1 [1] = some (.mk (.str "child2") (.str "v") none) :=
  ⟨rfl, by decide,
    (setData_makes_leaf getDefaultTree [1] (.mk (.str "child2") (.str "c2 World") none) "v"
      rfl (by decide)).1⟩

/-- C7 (as stated, refuted): `updateNodeData(root, [], "")` on the starter tree
returns a root that still has its two children, so its export is not the bare
`{ name: 'root' }`: exporting it gives the starter tree back. -/
theorem setData_empty_keeps_children :
    updateNodeData (some getDefaultTree) [] (.str "") =
      .ok (.mk (.str "root") .null getDefaultTree.children) ∧
    (getDefaultTree.children.map List.length = some 2) ∧
    extractTreeData (.mk (.str "root") .null getDefaultTree.children) = .ok getDefaultTree :=
  ⟨rfl, rfl, rfl⟩

/-- C7 (amended): at a path that addresses a node, `updateNodeData` with an
empty or absent value (the empty string, `null`, `undefined`) returns a tree
whose node at that path has the same name, data `null` and the children it had
before; when it had none (no array, or an empty one) neither data nor children
is populated and the export of that node is `{ name }` alone. -/
theorem setData_empty_clears_data (T : Node) (path : List Nat) (t : Node) (newValue : JSVal)
    (ht : nodeAt T path = some t)
    (hv : newValue = .undefined ∨ newValue = .null ∨ newValue = .str "") :
    ∃ T1, updateNodeData (some T) path newValue = .ok T1 ∧
      nodeAt T1 path = some (.mk t.name .null t.children) ∧
      (t.children = none ∨ t.children = some [] →
        extractTreeData (.mk t.name .null t.children) = .ok (.mk t.name .undefined none)) := by
  have h1 : ∃ T1, updateNodeData (some T) path newValue = .ok T1 ∧
      nodeAt T1 path = some (.mk t.name .null t.children) := by
    rw [updateNodeData_eq_editAt]
    apply editAt_nodeAt path T t _ ht
    rcases hv with h | h | h <;> subst h <;> rfl
  obtain ⟨T1, h2, h3⟩ := h1
  refine ⟨T1, h2, h3, ?_⟩
  intro hc
  rcases hc with hc | hc <;> rw [hc] <;> rfl

theorem setData_empty_clears_data_witness :
    nodeAt getDefaultTree [1] = some (.mk (.str "child2") (.str "c2 World") none) ∧
      ∃ T1, updateNodeData (some getDefaultTree) [1] (.str "") = .ok T1 ∧
        nodeAt T1 [1] = some (.mk (.str "child2") .null none) ∧
        extractTreeData (.mk (.str "child2") .null none) =
          .ok (.mk (.str "child2") .undefined none) := by
  obtain ⟨T1, h1, h2, h3⟩ := setData_empty_clears_data getDefaultTree [1]
    (.mk (.str "child2") (.str "c2 World") none) (.str "") rfl (Or.inr (Or.inr rfl))
  exact ⟨rfl, T1, h1, h2, h3 (Or.inl rfl)⟩

/-- C8: `extractTreeData` follows the emission rule.  For every tree the
exported object has the node's name; has data, the node's data, exactly when
that data is present (neither `undefined` nor `null`) and not the empty
string; has children, the exports of the node's children position by
position, exactly when the node's children array is present and non-empty.  A
leaf with data `""` and a node with only a name both export as `{ name }`. -/
theorem extractTreeData_emission_rule (T : Node) (hT : isTree T = true) :
    (∃ D, extractTreeData T = .ok D ∧ D.name = T.name ∧
      (T.data ≠ .undefined ∧ T.data ≠ .null ∧ T.data ≠ .str "" → D.data = T.data) ∧
      (T.data = .undefined ∨ T.data = .null ∨ T.data = .str "" → D.data = .undefined) ∧
      (∀ cs, T.children = some cs → cs ≠ [] →
        ∃ ds, D.children = some ds ∧ ExportedSlots cs ds) ∧
      (T.children = none ∨ T.children = some [] → D.children = none)) ∧
    (∀ name, extractTreeData (.mk name (.str "") none) = .ok (.mk name .undefined none)) ∧
    (∀ name, extractTreeData (.mk name .undefined none) = .ok (.mk name .undefined none)) := by
  refine ⟨?_, fun _ => rfl, fun _ => rfl⟩
  have hdata : ∀ data : JSVal,
      (data ≠ .undefined ∧ data ≠ .null ∧ data ≠ .str "" →
        (if isNonEmpty data then data else JSVal.undefined) = data) ∧
      (data = .undefined ∨ data = .null ∨ data = .str "" →
        (if isNonEmpty data then data else JSVal.undefined) = .undefined) := by
    intro data
    constructor
    · intro h
      rw [if_pos ((isNonEmpty_iff data).2 h)]
    · intro h
      rw [if_neg (by simp [(isNonEmpty_eq_false_iff data).2 h])]
  cases T with
  | mk name data children =>
    cases children with
    | none =>
      refine ⟨.mk name (if isNonEmpty data then data else .undefined) none,
        by simp only [extractTreeData_mk], rfl, (hdata data).1, (hdata data).2, ?_, ?_⟩
      · intro cs h; simp at h
      · intro _; rfl
    | some cs =>
      cases cs with
      | nil =>
        refine ⟨.mk name (if isNonEmpty data then data else .undefined) none,
          by simp only [extractTreeData_mk], rfl, (hdata data).1, (hdata data).2, ?_, ?_⟩
        · intro cs h hne
          simp only [children_mk, Option.some.injEq] at h
          exact absurd h.symm hne
        · intro _; rfl
      | cons c cs =>
        simp only [isTree] at hT
        obtain ⟨ds, hds, hrel⟩ := extractChildren_total (c :: cs) hT
        refine ⟨.mk name (if isNonEmpty data then data else .undefined) (some ds),
          by simp only [extractTreeData_mk, hds], rfl, (hdata data).1, (hdata data).2, ?_, ?_⟩
        · intro cs1 h _
          simp only [children_mk, Option.some.injEq] at h
          subst h
          exact ⟨ds, rfl, hrel⟩
        · intro h
          simp at h

theorem extractTreeData_emission_rule_witness :
    isTree getDefaultTree = true ∧
      ∃ D, extractTreeData getDefaultTree = .ok D ∧ D.name = .str "root" ∧
        D.data = .undefined ∧
        ∃ ds, D.children = some ds ∧ ds.length = 2 := by
  obtain ⟨D, h1, h2, _, h4, h5, _⟩ := (extractTreeData_emission_rule getDefaultTree rfl).1
  obtain ⟨ds, h6, h7⟩ := h5 _ rfl (by simp)
  exact ⟨rfl, D, h1, h2, h4 (Or.inl rfl), ds, h6, (List.Forall₂.length_eq h7).symm⟩

/-- C9: export is idempotent through the document shape.  For every tree with
no unclassified node, the exported object, read back as a tree with the same
fields, exports to itself.  (The code does so for every tree; the hypothesis
on unclassified nodes is the one of the specification.) -/
theorem export_idempotent (T : Node) (hT : isTree T = true)
    (hU : noUnclassified T = true) :
    ∃ D, extractTreeData T = .ok D ∧ extractTreeData D = .ok D := by
  have _ := hU
  obtain ⟨D, hD⟩ := extractTreeData_total T hT
  exact ⟨D, hD, extractTreeData_idem T D hD⟩

theorem export_idempotent_witness :
    isTree getDefaultTree = true ∧ noUnclassified getDefaultTree = true ∧
      ∃ D, extractTreeData getDefaultTree = .ok D ∧ extractTreeData D = .ok D :=
  ⟨rfl, rfl, export_idempotent getDefaultTree rfl rfl⟩

/-- C10: an edit changes nothing off the target.  For each of the three
editing calls at a path `Q ++ i :: R` that addresses a node, the call returns a
tree, and the proper ancestor of the target at `Q` keeps its name, its data and
its number of children, and each of its children other than the one at `i`
(the one on the way to the target) is the same subtree at the same position. -/
theorem edit_frame (e : Edit) (T : Node) (Q : List Nat) (i : Nat) (R : List Nat)
    (hv : nodeAt T (Q ++ i :: R) ≠ none) :
    ∃ T1, applyEdit e T (Q ++ i :: R) = .ok T1 ∧
      ∃ a a1, nodeAt T Q = some a ∧ nodeAt T1 Q = some a1 ∧ SameOffSpine a a1 i := by
  obtain ⟨T1, h1⟩ := applyEdit_ok e T (Q ++ i :: R) hv
  refine ⟨T1, h1, ?_⟩
  rw [applyEdit_eq_editAt] at h1
  exact editAt_frame (leafOf e) i R Q T T1 hv h1

theorem edit_frame_witness :
    nodeAt getDefaultTree ([0] ++ 1 :: []) ≠ none ∧
      ∃ T1, applyEdit .addChild getDefaultTree ([0] ++ 1 :: []) = .ok T1 ∧
        ∃ a a1, nodeAt getDefaultTree [0] = some a ∧ nodeAt T1 [0] = some a1 ∧
          SameOffSpine a a1 1 :=
  ⟨by simp [nodeAt, getDefaultTree, arrayGet],
    edit_frame .addChild getDefaultTree [0] 1 [] (by simp [nodeAt, getDefaultTree, arrayGet])⟩

end TagView
